import Mathlib

/-!
Verification of the `serve-csv` program: a shallow embedding of its core
(discovery, schema validation, row parsing, dataset store, request resolver)
translated from the Go source, together with theorems settling the spec
claims about it.
-/

set_option maxHeartbeats 1000000

namespace ServeCSV

/-- A Go `interface{}` value as stored in a row cell by `readCSVData`.
`vUnsupported` stands for any dynamic value that `encoding/json.Marshal`
cannot encode (func, chan, NaN float, ...); the program never constructs
one, which is exactly what the safety claim asserts. -/
inductive GoValue where
  | vInt (i : Int)
  | vStr (s : String)
  | vUnsupported
  deriving DecidableEq, Repr, Inhabited

/-- The JSON documents produced by `encoding/json.Marshal`.
Objects carry their key/value pairs in emission order (for Go maps:
ascending byte order of the keys). -/
inductive JSON where
  | jNull
  | jInt (i : Int)
  | jStr (s : String)
  | jArr (xs : List JSON)
  | jObj (kvs : List (String × JSON))
  deriving Inhabited

/-- Byte-wise (= code-point-wise, since UTF-8 preserves code point order)
lexicographic comparison of character lists, as used by Go's
`encoding/json` when it sorts map keys. -/
def charsLe : List Char → List Char → Bool
  | [], _ => true
  | _ :: _, [] => false
  | a :: as, b :: bs => if a = b then charsLe as bs else decide (a < b)

/-- `strLe a b` is Go's `a <= b` on strings (lexicographic byte order). -/
def strLe (a b : String) : Bool := charsLe a.data b.data

/-- Assignment `m[k] = v` on a Go map modelled as an association list with
distinct keys: overwrite the binding of `k` if present, append it otherwise. -/
def assocSet {α : Type} : List (String × α) → String → α → List (String × α)
  | [], k, v => [(k, v)]
  | (k0, v0) :: rest, k, v =>
    if k0 = k then (k0, v) :: rest else (k0, v0) :: assocSet rest k v

/-- Insert one key/value pair into a key-sorted list (insertion-sort step),
modelling where `encoding/json` places each map entry in its output. -/
def insertKV {α : Type} (p : String × α) : List (String × α) → List (String × α)
  | [] => [p]
  | q :: rest => if strLe p.1 q.1 then p :: q :: rest else q :: insertKV p rest

/-- Sort an association list by key, as `encoding/json.Marshal` does with
the entries of a Go map before emitting them. -/
def sortKV {α : Type} : List (String × α) → List (String × α)
  | [] => []
  | p :: rest => insertKV p (sortKV rest)

/-- `json.Marshal` on a single dynamic value: `int64` and `string` encode to
the corresponding JSON primitives, unsupported values make `Marshal` fail
(which the program turns into a panic). -/
def marshalVal : GoValue → Option JSON
  | .vInt i => some (.jInt i)
  | .vStr s => some (.jStr s)
  | .vUnsupported => none

/-- Marshal every value of an (already key-sorted) entry list. -/
def marshalEntries : List (String × GoValue) → Option (List (String × JSON))
  | [] => some []
  | (k, v) :: rest =>
    match marshalVal v, marshalEntries rest with
    | some j, some js => some ((k, j) :: js)
    | _, _ => none

/-- The Go loop `for i, val := range row { mp[fields[i]] = val }` that both
`jsonNth` and `jsonAll` use to build a row's map.  The zip matches the Go
loop whenever `row.length ≤ fields.length`; the program only calls it on
rows whose length equals the (equal) lengths of fields and types. -/
def rowMap (fields : List String) (row : List GoValue) : List (String × GoValue) :=
  (List.zip fields row).foldl (fun m kv => assocSet m kv.1 kv.2) []

/-- `json.Marshal(mp)` for a row's map: sort the entries by key and encode
each value; `none` models the `Marshal` error the program panics on. -/
def rowObj (fields : List String) (row : List GoValue) : Option JSON :=
  (marshalEntries (sortKV (rowMap fields row))).map .jObj

/-- One decimal digit, or `none`. -/
def digitVal (c : Char) : Option Nat :=
  if '0' ≤ c ∧ c ≤ '9' then some (c.toNat - '0'.toNat) else none

/-- Parse a nonempty string of decimal digits into its value. -/
def parseDigits : List Char → Option Nat
  | [] => none
  | [c] => digitVal c
  | c :: rest =>
    match digitVal c, parseDigits rest with
    | some d, some n => some (d * 10 ^ rest.length + n)
    | _, _ => none

/-- Go's `strconv.ParseInt(s, 10, bitSize)`: optional single leading sign,
then a nonempty run of decimal digits, and the value must fit in a signed
`bitSize`-bit integer; every other input (including overflow) yields an
error, modelled as `none`. -/
def parseInt (s : String) (bitSize : Nat) : Option Int :=
  match s.data with
  | [] => none
  | c :: rest =>
    let signedDigits : Bool × List Char :=
      if c = '-' then (true, rest)
      else if c = '+' then (false, rest)
      else (false, c :: rest)
    match parseDigits signedDigits.2 with
    | none => none
    | some m =>
      let v : Int := if signedDigits.1 then -(m : Int) else (m : Int)
      if -(2 ^ (bitSize - 1) : Int) ≤ v ∧ v < 2 ^ (bitSize - 1) then some v else none

/-- The unvalidated schema document (`RawSchema` in the source). -/
structure RawSchema where
  Fields : List String
  Types : List String
  deriving DecidableEq, Repr

/-- The resolved column types (`SchemaType` with constants `INT`, `STRING`). -/
inductive SchemaType where
  | INT
  | STRING
  deriving DecidableEq, Repr

/-- A validated schema (`Schema` in the source). -/
structure Schema where
  Fields : List String
  Types : List SchemaType
  deriving DecidableEq, Repr

/-- The two failure shapes of `RawSchema.validate`, carrying exactly the
data the source interpolates into its error messages
(`"Mismatched fields and types lengths: %d %d"` and
`"Unrecognized schema type: %s"`). -/
inductive SchemaError where
  | lengthMismatch (fields types : Nat)
  | unknownType (value : String)
  deriving DecidableEq, Repr

/-- The `switch typeString` loop of `validate`: resolve every type name,
stopping at the first unrecognized one. -/
def resolveTypes : List String → Except SchemaError (List SchemaType)
  | [] => .ok []
  | t :: ts =>
    if t = "int" then (resolveTypes ts).map (.INT :: ·)
    else if t = "string" then (resolveTypes ts).map (.STRING :: ·)
    else .error (.unknownType t)

/-- `RawSchema.validate` from the source: check the two lengths agree, then
resolve every type name. -/
def RawSchema.validate (schema : RawSchema) : Except SchemaError Schema :=
  let fieldsLen := schema.Fields.length
  let typesLen := schema.Types.length
  if fieldsLen ≠ typesLen then .error (.lengthMismatch fieldsLen typesLen)
  else (resolveTypes schema.Types).map (fun types => ⟨schema.Fields, types⟩)

/-- The failure shapes of `readCSVData`, carrying the data the source
interpolates into its error messages
(`"%s: row %d: bad record length, expected %d, got %d"` and
`"%s: row %d: %v"`, the latter wrapping the `strconv` error that quotes
the raw cell text). -/
inductive LoadError where
  | rowLengthMismatch (rowIndex expected actual : Nat)
  | cellParseError (rowIndex : Nat) (raw : String)
  deriving DecidableEq, Repr

/-- The inner `for i, typ := range schema.Types` loop of `readCSVData`:
convert each cell of one record according to its column type, stopping at
the first `int` cell that does not parse. -/
def convertCells (rowI : Nat) : List SchemaType → List String → Except LoadError (List GoValue)
  | [], _ => .ok []
  | _ :: _, [] => .ok []
  | typ :: ts, cell :: cs =>
    match typ with
    | .INT =>
      match parseInt cell 64 with
      | none => .error (.cellParseError rowI cell)
      | some num => (convertCells rowI ts cs).map (GoValue.vInt num :: ·)
    | .STRING => (convertCells rowI ts cs).map (GoValue.vStr cell :: ·)

/-- The outer `for rowI, record := range records` loop of `readCSVData`:
check each record's length against the schema and convert its cells,
stopping at the first failure. -/
def readRows (schema : Schema) : Nat → List (List String) → Except LoadError (List (List GoValue))
  | _, [] => .ok []
  | rowI, record :: rest =>
    if record.length ≠ schema.Types.length then
      .error (.rowLengthMismatch rowI schema.Types.length record.length)
    else do
      let row ← convertCells rowI schema.Types record
      let rows ← readRows schema (rowI + 1) rest
      pure (row :: rows)

/-- `CSVData` from the source: the typed rows plus the schema. -/
structure CSVData where
  rows : List (List GoValue)
  schema : Schema

/-- `readCSVData` from the source, taking the records the `encoding/csv`
collaborator already split out of the file: either the whole typed dataset
or the first error, never a partial dataset. -/
def readCSVData (records : List (List String)) (schema : Schema) : Except LoadError CSVData :=
  (readRows schema 0 records).map (fun rows => ⟨rows, schema⟩)

/-- What a correctly converted cell is: a `String`-typed cell is the raw
text unchanged, an `Int`-typed cell is the base-10 signed 64-bit parse of
the raw text. -/
def cellSpec : SchemaType → String → GoValue → Prop
  | .STRING, raw, v => v = .vStr raw
  | .INT, raw, v => ∃ n, parseInt raw 64 = some n ∧ v = .vInt n

/-- A record the row parser accepts: its length equals the schema's column
count and every `Int`-typed cell parses. -/
def recordOk (schema : Schema) (record : List String) : Prop :=
  record.length = schema.Types.length ∧
  ∀ p ∈ schema.Types.zip record, p.1 = SchemaType.INT → (parseInt p.2 64).isSome

/-- A typed row correctly converted from a record: cell-by-cell `cellSpec`
down the schema's column types. -/
def rowSpec (schema : Schema) (record : List String) (row : List GoValue) : Prop :=
  List.Forall₂ (fun (p : SchemaType × String) v => cellSpec p.1 p.2 v)
    (schema.Types.zip record) row

/-- The possible outcomes of a request-time serialization: a JSON payload,
a returned error (Go `([]byte, error)` with non-nil error), or a panic of
the `json.Marshal` branch. -/
inductive GetResult where
  | ok (j : JSON)
  | err (msg : String)
  | panicked
  deriving Inhabited

/-- `CSVData.jsonNth` from the source: bounds-check the index, build the
row's map and marshal it (`panicked` models the `panic(err)` branch). -/
def CSVData.jsonNth (data : CSVData) (index : Int) : GetResult :=
  if index < 0 ∨ index ≥ (data.rows.length : Int) then
    .err ("index " ++ toString index ++ " out of bounds")
  else
    match rowObj data.schema.Fields (data.rows.getD index.toNat []) with
    | none => .panicked
    | some j => .ok j

/-- The row-objects loop of `jsonAll`: one marshalled map per row, in row
order (`none` when `json.Marshal` would fail on some value). -/
def allRowObjs (fields : List String) : List (List GoValue) → Option (List JSON)
  | [] => some []
  | row :: rest =>
    match rowObj fields row, allRowObjs fields rest with
    | some o, some os => some (o :: os)
    | _, _ => none

/-- `CSVData.jsonAll` from the source: the slice of row maps is built with
`make(..., 0, len(rows))`, so zero rows marshal to the empty JSON array,
not to `null`; a `Marshal` failure is the `panic(err)` branch. -/
def CSVData.jsonAll (data : CSVData) : Option JSON :=
  (allRowObjs data.schema.Fields data.rows).map .jArr

/-- `DataRoutes` from the source: the Go `map[string]CSVData` as an
association list with distinct keys. -/
def DataRoutes := List (String × CSVData)

/-- Go map lookup `routes.routes[route]`. -/
def lookupRoute : DataRoutes → String → Option CSVData
  | [], _ => none
  | (k, v) :: rest, route => if k = route then some v else lookupRoute rest route

/-- `DataRoutes.Insert` from the source: `routes.routes[route] = data`. -/
def DataRoutes.Insert (routes : DataRoutes) (route : String) (data : CSVData) : DataRoutes :=
  assocSet routes route data

/-- `DataRoutes.GetAll` from the source. -/
def DataRoutes.GetAll (routes : DataRoutes) (route : String) : GetResult :=
  match lookupRoute routes route with
  | none => .err ("Unknown route: " ++ route)
  | some data =>
    match data.jsonAll with
    | none => .panicked
    | some j => .ok j

/-- `DataRoutes.GetNth` from the source. -/
def DataRoutes.GetNth (routes : DataRoutes) (route : String) (index : Int) : GetResult :=
  match lookupRoute routes route with
  | none => .err ("Unknown route: " ++ route)
  | some data => data.jsonNth index

/-- Go's `strings.HasSuffix`, on the underlying character lists (the
suffixes used here are ASCII, so byte and character indexing agree). -/
def goHasSuffix (s suf : String) : Bool :=
  decide (s.data.drop (s.data.length - suf.data.length) = suf.data)

/-- Go's `path[:len(path)-len(suf)]`: drop a trailing suffix of known length. -/
def stripEnd (s suf : String) : String :=
  String.mk (s.data.take (s.data.length - suf.data.length))

/-- `dataPath` from the source: a route with its two file paths. -/
structure dataPath where
  route : String
  csvFile : String
  jsonFile : String
  deriving DecidableEq, Repr

/-- The error message of `matchDataPaths` for a schema-less CSV file
(`"CSV file %s has no corresponding %s.json schema"`). -/
def missingMsg (base : String) : String :=
  "CSV file " ++ base ++ " has no corresponding " ++ base ++ ".json schema"

/-- The inner `for _, json := range jsons` loop of `matchDataPaths`: one
result per JSON base name equal to the CSV base name. -/
def matchOne (root base : String) (jsons : List String) : List dataPath :=
  jsons.filterMap (fun j =>
    if base = j then some ⟨base, root ++ base ++ ".csv", root ++ j ++ ".json"⟩ else none)

/-- The outer `for _, csv := range csvs` loop of `matchDataPaths`,
erroring as soon as a CSV base name has no matching JSON base name. -/
def matchLoop (root : String) (jsons : List String) : List String → Except String (List dataPath)
  | [] => .ok []
  | base :: rest =>
    let found := matchOne root base jsons
    if found.isEmpty then .error (missingMsg base)
    else (matchLoop root jsons rest).map (found ++ ·)

/-- The stripped base names of the `.csv` entries of a listing, in
discovery order (the `csvs` slice of the source). -/
def csvBases (paths : List String) : List String :=
  (paths.filter (fun p => goHasSuffix p ".csv")).map (fun p => stripEnd p ".csv")

/-- The stripped base names of the `.json` entries of a listing (the
`jsons` slice of the source). -/
def jsonBases (paths : List String) : List String :=
  (paths.filter (fun p => goHasSuffix p ".json")).map (fun p => stripEnd p ".json")

/-- `matchDataPaths` from the source.  The source fills `csvs` and `jsons`
in one pass with two independent suffix tests; no name ends in both
`".csv"` and `".json"`, so the two filtered lists are the same. -/
def matchDataPaths (root : String) (paths : List String) : Except String (List dataPath) :=
  matchLoop root (jsonBases paths) (csvBases paths)

/-- The outcome of the HTTP handler's path-routing logic. -/
inductive Query where
  | all (route : String)
  | one (route : String) (index : Int)
  | panicked
  deriving DecidableEq, Repr

/-- Split a character list at every occurrence of a separator; like Go's
`strings.Split` with a one-character separator, the result is never empty
and the empty input yields `[[]]`. -/
def splitChars (sep : Char) : List Char → List (List Char)
  | [] => [[]]
  | c :: rest =>
    let r := splitChars sep rest
    if c = sep then [] :: r else (c :: r.headD []) :: r.tail

/-- Go's `strings.Split(s, sep)` for a one-character separator. -/
def goSplit (s : String) (sep : Char) : List String :=
  (splitChars sep s.data).map String.mk

/-- Go's `s[n:]` (the program only uses it to drop the ASCII `/`). -/
def goDrop (s : String) (n : Nat) : String := String.mk (s.data.drop n)

/-- Go's `s[:n]`. -/
def goTake (s : String) (n : Nat) : String := String.mk (s.data.take n)

/-- The routing logic of the `http.HandleFunc` closure in `main`: strip the
leading slash, split on `"/"`, try to parse the last segment as a 32-bit
integer; on success slice the route down to `route[:len(route)-len(lastPart)-1]`,
which panics (slice bounds out of range) when the route is that single
segment, i.e. when `len(route) = len(lastPart)`.  `lastPart` is always a
suffix of `route` and the separator is ASCII, so character arithmetic
agrees with Go's byte arithmetic. -/
def resolve (path : String) : Query :=
  let route := goDrop path 1
  let splits := goSplit route '/'
  let lastPart := splits.getLastD ""
  match parseInt lastPart 32 with
  | none => .all route
  | some index =>
    if route.data.length < lastPart.data.length + 1 then .panicked
    else .one (goTake route (route.data.length - lastPart.data.length - 1)) index

/-- Minimal JSON string escaping (quote and backslash); the Go encoder
escapes more characters, but no claim depends on those. -/
def escapeChar (c : Char) : String :=
  if c = '"' then "\\\"" else if c = '\\' then "\\\\" else String.singleton c

/-- Render a JSON string literal. -/
def renderString (s : String) : String :=
  "\"" ++ String.join (s.data.map escapeChar) ++ "\""

mutual

/-- Render a JSON document the way `encoding/json.Marshal` prints it
(no added whitespace). -/
def renderJSON : JSON → String
  | .jNull => "null"
  | .jInt i => toString i
  | .jStr s => renderString s
  | .jArr xs => "[" ++ renderArr xs ++ "]"
  | .jObj kvs => "\x7b" ++ renderObj kvs ++ "\x7d"

/-- Render array elements, comma-separated. -/
def renderArr : List JSON → String
  | [] => ""
  | [x] => renderJSON x
  | x :: y :: rest => renderJSON x ++ "," ++ renderArr (y :: rest)

/-- Render object members, comma-separated. -/
def renderObj : List (String × JSON) → String
  | [] => ""
  | [(k, v)] => renderString k ++ ":" ++ renderJSON v
  | (k, v) :: p :: rest => renderString k ++ ":" ++ renderJSON v ++ "," ++ renderObj (p :: rest)

end

/-! Concrete fixtures used by witnesses and counterexamples. -/

/-- The schema of the README's `people.json`. -/
def peopleSchema : Schema := ⟨["firstName", "lastName"], [.STRING, .STRING]⟩

/-- Two rows of the README's `people.csv`, parsed. -/
def peopleData : CSVData :=
  ⟨[[.vStr "John", .vStr "Smith"], [.vStr "Alexa", .vStr "Miller"]], peopleSchema⟩

/-- A store serving the `people` dataset. -/
def demoStore : DataRoutes := [("people", peopleData)]

/-- A schema whose field names are not in sorted order. -/
def unsortedSchema : Schema := ⟨["b", "a"], [.STRING, .STRING]⟩

/-- A one-row dataset under `unsortedSchema`. -/
def unsortedData : CSVData := ⟨[[.vStr "x", .vStr "y"]], unsortedSchema⟩

/-- A store serving `unsortedData` at route `r`. -/
def unsortedStore : DataRoutes := [("r", unsortedData)]

/-- A dataset with zero rows (a CSV file containing no records). -/
def emptyData : CSVData := ⟨[], peopleSchema⟩

/-- A store serving the empty dataset at route `empty`. -/
def emptyStore : DataRoutes := [("empty", emptyData)]

/-- An int-typed one-column schema. -/
def numSchema : Schema := ⟨["n"], [.INT]⟩

/-- The dataset loaded from the single record `["5"]` under `numSchema`. -/
def numData : CSVData := ⟨[[.vInt 5]], numSchema⟩

/-- A store serving `numData` at route `nums`. -/
def numStore : DataRoutes := [("nums", numData)]

/-! ## Claim theorems -/

/-- C1: the claim says the resolver's decision rule ("route = all segments
except the last, index = the parsed integer") holds for every path,
including a path consisting of a single integer-parsing segment.  On the
code, a path such as `/5` reaches the slice `route[:len(route)-len(lastPart)-1]`
with a negative bound and panics instead of resolving the query
`one "" 5`; multi-segment paths follow the rule. -/
theorem resolve_single_int_segment_panics :
    resolve "/5" = .panicked ∧ Query.panicked ≠ Query.one "" 5 ∧
    resolve "/people/5" = .one "people" 5 := by decide

/-- C5: on a known route, an index outside `[0, rowCount)` makes `GetNth`
fail with the index-out-of-bounds error; on an absent route, `GetAll` and
`GetNth` fail with the unknown-route error naming the route.  The `.err`
results are returned before any row is serialized. -/
theorem request_time_errors (routes : DataRoutes) (route : String) (i : Int) :
    (∀ data, lookupRoute routes route = some data →
      i < 0 ∨ i ≥ (data.rows.length : Int) →
      DataRoutes.GetNth routes route i = .err ("index " ++ toString i ++ " out of bounds"))
  ∧ (lookupRoute routes route = none →
      DataRoutes.GetAll routes route = .err ("Unknown route: " ++ route) ∧
      DataRoutes.GetNth routes route i = .err ("Unknown route: " ++ route)) := by
  constructor
  · intro data hl hb
    simp only [DataRoutes.GetNth, hl, CSVData.jsonNth, if_pos hb]
  · intro hl
    constructor
    · simp only [DataRoutes.GetAll, hl]
    · simp only [DataRoutes.GetNth, hl]

/-- Witness for C5 at a concrete store: out-of-bounds index on `people`,
unknown route `cats`. -/
theorem request_time_errors_witness :
    DataRoutes.GetNth demoStore "people" 5 =
      .err ("index " ++ toString (5 : Int) ++ " out of bounds") ∧
    DataRoutes.GetAll demoStore "cats" = .err ("Unknown route: " ++ "cats") ∧
    DataRoutes.GetNth demoStore "cats" 0 = .err ("Unknown route: " ++ "cats") :=
  ⟨(request_time_errors demoStore "people" 5).1 peopleData rfl (by decide),
   ((request_time_errors demoStore "cats" 0).2 rfl).1,
   ((request_time_errors demoStore "cats" 0).2 rfl).2⟩

/-- C6: validating a raw schema whose field and type lists have different
lengths fails with the length-mismatch error carrying both true lengths,
and produces no schema. -/
theorem validate_length_mismatch (raw : RawSchema)
    (h : raw.Fields.length ≠ raw.Types.length) :
    raw.validate = .error (.lengthMismatch raw.Fields.length raw.Types.length) := by
  unfold RawSchema.validate
  rw [if_pos h]

/-- Witness for C6 at a concrete raw schema with 1 field and 0 types. -/
theorem validate_length_mismatch_witness :
    (RawSchema.mk ["a"] []).Fields.length ≠ (RawSchema.mk ["a"] []).Types.length ∧
    (RawSchema.mk ["a"] []).validate =
      .error (.lengthMismatch (RawSchema.mk ["a"] []).Fields.length
        (RawSchema.mk ["a"] []).Types.length) :=
  ⟨by decide, validate_length_mismatch ⟨["a"], []⟩ (by decide)⟩

/-- If every type name is `"int"` or `"string"`, the resolution loop of
`validate` succeeds, producing the corresponding tags in order. -/
theorem resolveTypes_all_known (ts : List String)
    (h : ∀ t ∈ ts, t = "int" ∨ t = "string") :
    ∃ tags, resolveTypes ts = .ok tags ∧
      List.Forall₂ (fun t tag => (t = "int" ∧ tag = SchemaType.INT) ∨
        (t = "string" ∧ tag = SchemaType.STRING)) ts tags := by
  induction ts with
  | nil => exact ⟨[], rfl, List.Forall₂.nil⟩
  | cons t ts ih =>
    obtain ⟨tags, htags, hrel⟩ := ih (fun x hx => h x (List.mem_cons_of_mem _ hx))
    rcases h t (List.mem_cons_self t ts) with ht | ht
    · exact ⟨.INT :: tags, by simp [resolveTypes, ht, htags, Except.map],
        List.Forall₂.cons (Or.inl ⟨ht, rfl⟩) hrel⟩
    · exact ⟨.STRING :: tags, by simp [resolveTypes, ht, htags, Except.map],
        List.Forall₂.cons (Or.inr ⟨ht, rfl⟩) hrel⟩

/-- If some type name is unknown, the resolution loop of `validate` fails
with `unknownType` naming the first unknown name. -/
theorem resolveTypes_unknown (ts : List String)
    (h : ∃ t ∈ ts, t ≠ "int" ∧ t ≠ "string") :
    ∃ v, v ∈ ts ∧ v ≠ "int" ∧ v ≠ "string" ∧
      resolveTypes ts = .error (.unknownType v) := by
  induction ts with
  | nil => simp at h
  | cons t ts ih =>
    by_cases hint : t = "int"
    · have h' : ∃ x ∈ ts, x ≠ "int" ∧ x ≠ "string" := by
        rcases h with ⟨x, hx, hxv⟩
        rcases List.mem_cons.mp hx with rfl | hx'
        · exact absurd hint hxv.1
        · exact ⟨x, hx', hxv⟩
      obtain ⟨v, hv, hv1, hv2, hres⟩ := ih h'
      exact ⟨v, List.mem_cons_of_mem _ hv, hv1, hv2,
        by simp [resolveTypes, hint, hres, Except.map]⟩
    · by_cases hstr : t = "string"
      · have h' : ∃ x ∈ ts, x ≠ "int" ∧ x ≠ "string" := by
          rcases h with ⟨x, hx, hxv⟩
          rcases List.mem_cons.mp hx with rfl | hx'
          · exact absurd hstr hxv.2
          · exact ⟨x, hx', hxv⟩
        obtain ⟨v, hv, hv1, hv2, hres⟩ := ih h'
        exact ⟨v, List.mem_cons_of_mem _ hv, hv1, hv2,
          by simp [resolveTypes, hint, hstr, hres, Except.map]⟩
      · exact ⟨t, List.mem_cons_self t ts, hint, hstr,
          by simp [resolveTypes, hint, hstr]⟩

/-- C7: on a raw schema with equal-length fields and types, validation
succeeds when every type name is exactly `"int"` or `"string"`, resolving
the tags in order and preserving the fields; it fails with an unknown-type
error naming the offending value otherwise. -/
theorem validate_resolves_types (raw : RawSchema)
    (hlen : raw.Fields.length = raw.Types.length) :
    ((∀ t ∈ raw.Types, t = "int" ∨ t = "string") →
      ∃ s, raw.validate = .ok s ∧ s.Fields = raw.Fields ∧
        List.Forall₂ (fun t tag => (t = "int" ∧ tag = SchemaType.INT) ∨
          (t = "string" ∧ tag = SchemaType.STRING)) raw.Types s.Types)
  ∧ ((∃ t ∈ raw.Types, t ≠ "int" ∧ t ≠ "string") →
      ∃ v, v ∈ raw.Types ∧ v ≠ "int" ∧ v ≠ "string" ∧
        raw.validate = .error (.unknownType v)) := by
  constructor
  · intro h
    obtain ⟨tags, htags, hrel⟩ := resolveTypes_all_known raw.Types h
    exact ⟨⟨raw.Fields, tags⟩, by
      unfold RawSchema.validate
      rw [if_neg (by simp [hlen]), htags]
      rfl, rfl, hrel⟩
  · intro h
    obtain ⟨v, hv, hv1, hv2, hres⟩ := resolveTypes_unknown raw.Types h
    exact ⟨v, hv, hv1, hv2, by
      unfold RawSchema.validate
      rw [if_neg (by simp [hlen]), hres]
      rfl⟩

/-- Witness for C7 at a concrete raw schema with one `"int"` and one
`"string"` column, and at one with an unknown type name. -/
theorem validate_resolves_types_witness :
    (∃ s, (RawSchema.mk ["a", "b"] ["int", "string"]).validate = .ok s ∧
      s.Fields = (RawSchema.mk ["a", "b"] ["int", "string"]).Fields ∧
      List.Forall₂ (fun t tag => (t = "int" ∧ tag = SchemaType.INT) ∨
        (t = "string" ∧ tag = SchemaType.STRING))
        (RawSchema.mk ["a", "b"] ["int", "string"]).Types s.Types) ∧
    (∃ v, v ∈ (RawSchema.mk ["a"] ["float"]).Types ∧ v ≠ "int" ∧ v ≠ "string" ∧
      (RawSchema.mk ["a"] ["float"]).validate = .error (.unknownType v)) :=
  ⟨(validate_resolves_types ⟨["a", "b"], ["int", "string"]⟩ (by decide)).1 (by decide),
   (validate_resolves_types ⟨["a"], ["float"]⟩ (by decide)).2
     ⟨"float", by decide, by decide, by decide⟩⟩

/-- C10: a dataset with zero rows serializes under `GetAll` to the JSON
empty array `[]` (the source marshals a non-nil empty slice), not to
`null` and not to an error. -/
theorem getAll_zero_rows (routes : DataRoutes) (route : String) (data : CSVData)
    (h : lookupRoute routes route = some data) (hrows : data.rows = []) :
    DataRoutes.GetAll routes route = .ok (.jArr []) ∧
    renderJSON (.jArr []) = "[]" ∧ renderJSON .jNull = "null" := by
  refine ⟨?_, ?_, ?_⟩
  · have hj : data.jsonAll = some (.jArr []) := by
      unfold CSVData.jsonAll
      rw [hrows]
      rfl
    simp only [DataRoutes.GetAll, h, hj]
  · simp [renderJSON, renderArr]
  · simp [renderJSON]

/-- Witness for C10 at the concrete empty dataset. -/
theorem getAll_zero_rows_witness :
    DataRoutes.GetAll emptyStore "empty" = .ok (.jArr []) ∧
    renderJSON (.jArr []) = "[]" ∧ renderJSON .jNull = "null" :=
  getAll_zero_rows emptyStore "empty" emptyData rfl rfl

/-- If every `Int` cell of a record parses, the cell-conversion loop
succeeds and its output satisfies `cellSpec` cell by cell. -/
theorem convertCells_ok_of (rowI : Nat) (ts : List SchemaType) (cs : List String)
    (h : ∀ p ∈ ts.zip cs, p.1 = SchemaType.INT → (parseInt p.2 64).isSome) :
    ∃ row, convertCells rowI ts cs = .ok row ∧
      List.Forall₂ (fun (p : SchemaType × String) v => cellSpec p.1 p.2 v) (ts.zip cs) row := by
  induction ts generalizing cs with
  | nil => exact ⟨[], rfl, by simp⟩
  | cons t ts ih =>
    cases cs with
    | nil => exact ⟨[], by cases t <;> rfl, by simp⟩
    | cons c cs =>
      obtain ⟨row, hrow, hrel⟩ := ih cs (fun p hp hint => h p (by simp [hp]) hint)
      cases t with
      | INT =>
        have hs := h (.INT, c) (by simp) rfl
        obtain ⟨n, hn⟩ := Option.isSome_iff_exists.mp hs
        refine ⟨.vInt n :: row, ?_, ?_⟩
        · simp [convertCells, hn, hrow, Except.map]
        · exact List.Forall₂.cons ⟨n, hn, rfl⟩ hrel
      | STRING =>
        refine ⟨.vStr c :: row, ?_, ?_⟩
        · simp [convertCells, hrow, Except.map]
        · exact List.Forall₂.cons rfl hrel

/-- A successful cell conversion means every `Int` cell parsed. -/
theorem convertCells_ok_parses (rowI : Nat) (ts : List SchemaType) (cs : List String)
    (row : List GoValue) (h : convertCells rowI ts cs = .ok row) :
    ∀ p ∈ ts.zip cs, p.1 = SchemaType.INT → (parseInt p.2 64).isSome := by
  induction ts generalizing cs row with
  | nil => simp
  | cons t ts ih =>
    cases cs with
    | nil => simp
    | cons c cs =>
      intro p hp hint
      rcases List.mem_cons.mp (by simpa using hp) with rfl | hp'
      · have ht : t = SchemaType.INT := hint
        subst ht
        cases hn : parseInt c 64 with
        | none => exfalso; simp [convertCells, hn] at h
        | some n => simp [hn]
      · cases t with
        | INT =>
          cases hn : parseInt c 64 with
          | none => simp [convertCells, hn] at h
          | some n =>
            simp only [convertCells, hn] at h
            cases hrec : convertCells rowI ts cs with
            | error e => rw [hrec] at h; simp [Except.map] at h
            | ok row' => exact ih cs row' hrec p hp' hint
        | STRING =>
          simp only [convertCells] at h
          cases hrec : convertCells rowI ts cs with
          | error e => rw [hrec] at h; simp [Except.map] at h
          | ok row' => exact ih cs row' hrec p hp' hint

/-- A failed cell conversion is a `cellParseError` of this row, caused by
some `Int` cell whose raw text does not parse. -/
theorem convertCells_err_shape (rowI : Nat) (ts : List SchemaType) (cs : List String)
    (e : LoadError) (h : convertCells rowI ts cs = .error e) :
    ∃ p ∈ ts.zip cs, p.1 = SchemaType.INT ∧ parseInt p.2 64 = none ∧
      e = .cellParseError rowI p.2 := by
  induction ts generalizing cs with
  | nil => simp [convertCells] at h
  | cons t ts ih =>
    cases cs with
    | nil => cases t <;> simp [convertCells] at h
    | cons c cs =>
      cases t with
      | INT =>
        cases hn : parseInt c 64 with
        | none =>
          simp only [convertCells, hn] at h
          obtain rfl : LoadError.cellParseError rowI c = e := by
            cases h; rfl
          exact ⟨(.INT, c), by simp, rfl, hn, rfl⟩
        | some n =>
          simp only [convertCells, hn] at h
          cases hrec : convertCells rowI ts cs with
          | error e' =>
            rw [hrec] at h
            simp only [Except.map] at h
            obtain rfl : e' = e := by cases h; rfl
            obtain ⟨p, hp, h1, h2, h3⟩ := ih cs hrec
            exact ⟨p, by simp [hp], h1, h2, h3⟩
          | ok row' => rw [hrec] at h; simp [Except.map] at h
      | STRING =>
        simp only [convertCells] at h
        cases hrec : convertCells rowI ts cs with
        | error e' =>
          rw [hrec] at h
          simp only [Except.map] at h
          obtain rfl : e' = e := by cases h; rfl
          obtain ⟨p, hp, h1, h2, h3⟩ := ih cs hrec
          exact ⟨p, by simp [hp], h1, h2, h3⟩
        | ok row' => rw [hrec] at h; simp [Except.map] at h

/-- The cons equation of the record loop, in explicit `bind` form. -/
theorem readRows_cons (schema : Schema) (k : Nat) (record : List String)
    (rest : List (List String)) :
    readRows schema k (record :: rest) =
      if record.length ≠ schema.Types.length then
        .error (.rowLengthMismatch k schema.Types.length record.length)
      else
        (convertCells k schema.Types record).bind fun row =>
          (readRows schema (k + 1) rest).bind fun rows => .ok (row :: rows) := rfl

/-- If every record is acceptable, the record loop succeeds and converts
record by record. -/
theorem readRows_ok_of (schema : Schema) (k : Nat) (records : List (List String))
    (h : ∀ r ∈ records, recordOk schema r) :
    ∃ rows, readRows schema k records = .ok rows ∧
      List.Forall₂ (rowSpec schema) records rows := by
  induction records generalizing k with
  | nil => exact ⟨[], rfl, by simp⟩
  | cons record rest ih =>
    obtain ⟨hlen, hcells⟩ := h record (by simp)
    obtain ⟨row, hrow, hrel⟩ := convertCells_ok_of k schema.Types record hcells
    obtain ⟨rows, hrows, hrel'⟩ := ih (k + 1) (fun r hr => h r (by simp [hr]))
    refine ⟨row :: rows, ?_, List.Forall₂.cons hrel hrel'⟩
    rw [readRows_cons, if_neg (by simp [hlen]), hrow, hrows]
    rfl

/-- A failed record loop fails at the first unacceptable record, with the
error shapes of the source (length mismatch carrying both lengths, or a
cell parse error), and yields no rows at all. -/
theorem readRows_err_shape (schema : Schema) (k : Nat) (records : List (List String))
    (e : LoadError) (h : readRows schema k records = .error e) :
    ∃ i, i < records.length ∧
      (∀ j, j < i → recordOk schema (records.getD j [])) ∧
      ¬ recordOk schema (records.getD i []) ∧
      ((records.getD i []).length ≠ schema.Types.length ∧
          e = .rowLengthMismatch (k + i) schema.Types.length (records.getD i []).length
       ∨ ∃ raw, e = .cellParseError (k + i) raw) := by
  induction records generalizing k with
  | nil => simp [readRows] at h
  | cons record rest ih =>
    rw [readRows_cons] at h
    by_cases hlen : record.length = schema.Types.length
    · rw [if_neg (by simp [hlen])] at h
      cases hc : convertCells k schema.Types record with
      | error e' =>
        rw [hc] at h
        simp only [Except.bind] at h
        obtain rfl : e' = e := by cases h; rfl
        obtain ⟨p, hp, hint, hnone, he⟩ := convertCells_err_shape k schema.Types record e' hc
        refine ⟨0, by simp, by omega, ?_, Or.inr ⟨p.2, by simpa using he⟩⟩
        intro hok
        have := hok.2 p (by simpa using hp) hint
        rw [hnone] at this
        simp at this
      | ok row =>
        rw [hc] at h
        simp only [Except.bind] at h
        cases hr : readRows schema (k + 1) rest with
        | error e' =>
          rw [hr] at h
          simp only [Except.bind] at h
          obtain rfl : e' = e := by cases h; rfl
          obtain ⟨i, hi, hpre, hbad, hshape⟩ := ih (k + 1) hr
          refine ⟨i + 1, by simpa using hi, ?_, by simpa using hbad, ?_⟩
          · intro j hj
            cases j with
            | zero =>
              refine ⟨hlen, convertCells_ok_parses k schema.Types record row hc⟩
            | succ j' => simpa using hpre j' (by omega)
          · rcases hshape with ⟨h1, h2⟩ | ⟨raw, h2⟩
            · exact Or.inl ⟨by simpa using h1, by simpa [Nat.add_assoc, Nat.add_comm 1 i] using h2⟩
            · exact Or.inr ⟨raw, by simpa [Nat.add_assoc, Nat.add_comm 1 i] using h2⟩
        | ok rows => rw [hr] at h; simp [Except.bind] at h
    · rw [if_pos hlen] at h
      obtain rfl : LoadError.rowLengthMismatch k schema.Types.length record.length = e := by
        cases h; rfl
      refine ⟨0, by simp, by omega, ?_, Or.inl ⟨by simpa using hlen, by simp⟩⟩
      intro hok
      exact hlen (by simpa using hok.1)

/-- A successful record loop means every record had the schema's column
count and every `Int` cell parsed. -/
theorem readRows_ok_records (schema : Schema) (k : Nat) (records : List (List String))
    (rows : List (List GoValue)) (h : readRows schema k records = .ok rows) :
    ∀ r ∈ records, recordOk schema r := by
  induction records generalizing k rows with
  | nil => simp
  | cons record rest ih =>
    rw [readRows_cons] at h
    by_cases hlen : record.length = schema.Types.length
    · rw [if_neg (by simp [hlen])] at h
      cases hc : convertCells k schema.Types record with
      | error e => rw [hc] at h; simp [Except.bind] at h
      | ok row =>
        rw [hc] at h
        simp only [Except.bind] at h
        cases hr : readRows schema (k + 1) rest with
        | error e => rw [hr] at h; simp [Except.bind] at h
        | ok rows' =>
          intro r hrmem
          rcases List.mem_cons.mp hrmem with rfl | h'
          · exact ⟨hlen, convertCells_ok_parses k schema.Types r row hc⟩
          · exact ih (k + 1) rows' hr r h'
    · rw [if_pos hlen] at h
      cases h

/-- C4: the row parser is all-or-nothing: if every record has the schema's
column count and every `Int` cell parses (base-10, signed 64-bit), it
returns the full typed row sequence, converting `String` cells to the raw
text unchanged and `Int` cells to their parses; any error it returns
points at the first offending record, as a length-mismatch error carrying
the row index and both lengths or a cell error carrying the row index;
and an input containing any offending record never loads — the result is
an error, so no partial dataset is ever produced. -/
theorem readCSVData_all_or_nothing (schema : Schema) (records : List (List String)) :
    ((∀ r ∈ records, recordOk schema r) →
      ∃ data, readCSVData records schema = .ok data ∧ data.schema = schema ∧
        List.Forall₂ (rowSpec schema) records data.rows)
  ∧ (∀ e, readCSVData records schema = .error e →
      ∃ i, i < records.length ∧
        (∀ j, j < i → recordOk schema (records.getD j [])) ∧
        ¬ recordOk schema (records.getD i []) ∧
        ((records.getD i []).length ≠ schema.Types.length ∧
            e = .rowLengthMismatch i schema.Types.length (records.getD i []).length
         ∨ ∃ raw, e = .cellParseError i raw))
  ∧ ((∃ r ∈ records, ¬ recordOk schema r) →
      ∃ e, readCSVData records schema = .error e) := by
  refine ⟨?_, ?_, ?_⟩
  · intro h
    obtain ⟨rows, hrows, hrel⟩ := readRows_ok_of schema 0 records h
    exact ⟨⟨rows, schema⟩, by simp [readCSVData, hrows, Except.map], rfl, hrel⟩
  · intro e he
    have hr : readRows schema 0 records = .error e := by
      unfold readCSVData at he
      cases hr : readRows schema 0 records with
      | error e' => rw [hr] at he; simp only [Except.map] at he; cases he; rfl
      | ok rows => rw [hr] at he; simp [Except.map] at he
    simpa using readRows_err_shape schema 0 records e hr
  · intro hbad
    cases hr : readRows schema 0 records with
    | error e => exact ⟨e, by simp [readCSVData, hr, Except.map]⟩
    | ok rows =>
      obtain ⟨r, hrmem, hrbad⟩ := hbad
      exact absurd (readRows_ok_records schema 0 records rows hr r hrmem) hrbad

/-- Witness for C4: a well-formed load at a concrete one-int-column
schema succeeds, and a load whose only record has an unparseable `Int`
cell fails. -/
theorem readCSVData_all_or_nothing_witness :
    (∃ data, readCSVData [["5"], ["-12"]] numSchema = .ok data ∧ data.schema = numSchema ∧
      List.Forall₂ (rowSpec numSchema) [["5"], ["-12"]] data.rows) ∧
    (∃ e, readCSVData [["zzz"]] numSchema = .error e) :=
  ⟨(readCSVData_all_or_nothing numSchema [["5"], ["-12"]]).1 (by
    intro r hr
    rcases List.mem_cons.mp hr with rfl | hr'
    · exact ⟨rfl, by decide⟩
    · rcases List.mem_singleton.mp hr' with rfl
      exact ⟨rfl, by decide⟩),
   (readCSVData_all_or_nothing numSchema [["zzz"]]).2.2
     ⟨["zzz"], by decide, by simp only [recordOk] ; decide⟩⟩

/-- Cell conversion only produces `int64` and `string` values. -/
theorem convertCells_encodable (rowI : Nat) (ts : List SchemaType) (cs : List String)
    (row : List GoValue) (h : convertCells rowI ts cs = .ok row) :
    ∀ v ∈ row, v ≠ GoValue.vUnsupported := by
  induction ts generalizing cs row with
  | nil =>
    obtain rfl : ([] : List GoValue) = row := by cases h; rfl
    simp
  | cons t ts ih =>
    cases cs with
    | nil =>
      obtain rfl : ([] : List GoValue) = row := by cases t <;> (cases h; rfl)
      simp
    | cons c cs =>
      cases t with
      | INT =>
        cases hn : parseInt c 64 with
        | none => simp [convertCells, hn] at h
        | some n =>
          simp only [convertCells, hn] at h
          cases hrec : convertCells rowI ts cs with
          | error e => rw [hrec] at h; simp [Except.map] at h
          | ok row' =>
            rw [hrec] at h
            simp only [Except.map] at h
            obtain rfl : GoValue.vInt n :: row' = row := by cases h; rfl
            intro v hv
            rcases List.mem_cons.mp hv with rfl | hv'
            · simp
            · exact ih cs row' hrec v hv'
      | STRING =>
        simp only [convertCells] at h
        cases hrec : convertCells rowI ts cs with
        | error e => rw [hrec] at h; simp [Except.map] at h
        | ok row' =>
          rw [hrec] at h
          simp only [Except.map] at h
          obtain rfl : GoValue.vStr c :: row' = row := by cases h; rfl
          intro v hv
          rcases List.mem_cons.mp hv with rfl | hv'
          · simp
          · exact ih cs row' hrec v hv'

/-- Every value of every row the record loop produces is encodable. -/
theorem readRows_encodable (schema : Schema) (k : Nat) (records : List (List String))
    (rows : List (List GoValue)) (h : readRows schema k records = .ok rows) :
    ∀ row ∈ rows, ∀ v ∈ row, v ≠ GoValue.vUnsupported := by
  induction records generalizing k rows with
  | nil =>
    obtain rfl : ([] : List (List GoValue)) = rows := by cases h; rfl
    simp
  | cons record rest ih =>
    rw [readRows_cons] at h
    by_cases hlen : record.length = schema.Types.length
    · rw [if_neg (by simp [hlen])] at h
      cases hc : convertCells k schema.Types record with
      | error e => rw [hc] at h; simp [Except.bind] at h
      | ok row =>
        rw [hc] at h
        simp only [Except.bind] at h
        cases hr : readRows schema (k + 1) rest with
        | error e => rw [hr] at h; simp [Except.bind] at h
        | ok rows' =>
          rw [hr] at h
          simp only [Except.bind] at h
          obtain rfl : row :: rows' = rows := by cases h; rfl
          intro r hr' v hv
          rcases List.mem_cons.mp hr' with rfl | hr''
          · exact convertCells_encodable k schema.Types record r hc v hv
          · exact ih (k + 1) rows' hr r hr'' v hv
    · rw [if_pos hlen] at h
      cases h

/-- Membership in a Go-map assignment: an entry of `assocSet m k v` is an
entry of `m` or carries the value `v`. -/
theorem mem_assocSet {α : Type} {m : List (String × α)} {k : String} {v : α}
    {kv : String × α} (h : kv ∈ assocSet m k v) : kv ∈ m ∨ kv.2 = v := by
  induction m with
  | nil =>
    rcases List.mem_singleton.mp h with rfl
    exact Or.inr rfl
  | cons p rest ih =>
    by_cases hk : p.1 = k
    · rw [show assocSet (p :: rest) k v = (p.1, v) :: rest by
        simp [assocSet, hk]] at h
      rcases List.mem_cons.mp h with rfl | h'
      · exact Or.inr rfl
      · exact Or.inl (List.mem_cons_of_mem _ h')
    · rw [show assocSet (p :: rest) k v = p :: assocSet rest k v by
        simp [assocSet, hk]] at h
      rcases List.mem_cons.mp h with rfl | h'
      · exact Or.inl (List.mem_cons_self _ _)
      · rcases ih h' with h'' | h''
        · exact Or.inl (List.mem_cons_of_mem _ h'')
        · exact Or.inr h''

/-- Membership in a fold of Go-map assignments: every entry comes from the
initial map or carries the value of one of the assigned pairs. -/
theorem mem_foldl_assocSet {α : Type} (pairs : List (String × α))
    (m0 : List (String × α)) {kv : String × α}
    (h : kv ∈ pairs.foldl (fun m p => assocSet m p.1 p.2) m0) :
    kv ∈ m0 ∨ ∃ p ∈ pairs, kv.2 = p.2 := by
  induction pairs generalizing m0 with
  | nil => exact Or.inl (by simpa using h)
  | cons p rest ih =>
    rcases ih (assocSet m0 p.1 p.2) (by simpa using h) with h' | ⟨q, hq, hval⟩
    · rcases mem_assocSet h' with h'' | h''
      · exact Or.inl h''
      · exact Or.inr ⟨p, List.mem_cons_self _ _, h''⟩
    · exact Or.inr ⟨q, List.mem_cons_of_mem _ hq, hval⟩

/-- Inserting into a key-sorted list permutes consing. -/
theorem insertKV_perm {α : Type} (p : String × α) (l : List (String × α)) :
    List.Perm (insertKV p l) (p :: l) := by
  induction l with
  | nil => exact List.Perm.refl _
  | cons q rest ih =>
    by_cases hle : strLe p.1 q.1
    · simp [insertKV, hle]
    · have h1 : List.Perm (q :: insertKV p rest) (q :: p :: rest) := ih.cons q
      have h2 : List.Perm (q :: p :: rest) (p :: q :: rest) := List.Perm.swap p q rest
      simpa [insertKV, hle] using h1.trans h2

/-- The key sort of `encoding/json` is a permutation of the map entries. -/
theorem sortKV_perm {α : Type} (l : List (String × α)) : List.Perm (sortKV l) l := by
  induction l with
  | nil => exact List.Perm.refl _
  | cons p rest ih => exact (insertKV_perm p (sortKV rest)).trans (ih.cons p)

/-- An in-bounds `getD` is a member of the list. -/
theorem getD_mem_of_lt {α : Type} (l : List α) (n : Nat) (d : α) (h : n < l.length) :
    l.getD n d ∈ l := by
  rw [List.getD_eq_getElem l d h]
  exact l.getElem_mem h

/-- Marshalling succeeds on an entry list of encodable values and
preserves the keys in order. -/
theorem marshalEntries_some (l : List (String × GoValue))
    (h : ∀ kv ∈ l, kv.2 ≠ GoValue.vUnsupported) :
    ∃ js, marshalEntries l = some js ∧ js.map Prod.fst = l.map Prod.fst := by
  induction l with
  | nil => exact ⟨[], rfl, rfl⟩
  | cons kv rest ih =>
    obtain ⟨js, hjs, hkeys⟩ := ih (fun p hp => h p (List.mem_cons_of_mem _ hp))
    have hv := h kv (List.mem_cons_self _ _)
    obtain ⟨j, hj⟩ : ∃ j, marshalVal kv.2 = some j := by
      cases hkv : kv.2 with
      | vInt i => exact ⟨.jInt i, rfl⟩
      | vStr s => exact ⟨.jStr s, rfl⟩
      | vUnsupported => exact absurd hkv hv
    exact ⟨(kv.1, j) :: js, by simp [marshalEntries, hj, hjs], by simp [hkeys]⟩

/-- Every value bound in a row's map comes from the row, so a row of
encodable values marshals to an object. -/
theorem rowObj_some (fields : List String) (row : List GoValue)
    (h : ∀ v ∈ row, v ≠ GoValue.vUnsupported) :
    ∃ kvs, rowObj fields row = some (.jObj kvs) := by
  have hvals : ∀ kv ∈ sortKV (rowMap fields row), kv.2 ≠ GoValue.vUnsupported := by
    intro kv hkv
    have hmem : kv ∈ rowMap fields row := (sortKV_perm _).subset hkv
    rcases mem_foldl_assocSet _ [] hmem with h0 | ⟨p, hp, hval⟩
    · simp at h0
    · rw [hval]
      exact h p.2 (List.of_mem_zip hp).2
  obtain ⟨js, hjs, _⟩ := marshalEntries_some _ hvals
  exact ⟨js, by simp [rowObj, hjs]⟩

/-- On rows of encodable values, the row-objects loop of `jsonAll`
succeeds, producing one marshalled object per row. -/
theorem allRowObjs_some (fields : List String) (rows : List (List GoValue))
    (h : ∀ row ∈ rows, ∀ v ∈ row, v ≠ GoValue.vUnsupported) :
    ∃ objs, allRowObjs fields rows = some objs ∧
      List.Forall₂ (fun row o => rowObj fields row = some o) rows objs := by
  induction rows with
  | nil => exact ⟨[], rfl, List.Forall₂.nil⟩
  | cons row rest ih =>
    obtain ⟨objs, hobjs, hrel⟩ := ih (fun r hr => h r (List.mem_cons_of_mem _ hr))
    obtain ⟨kvs, hkvs⟩ := rowObj_some fields row (h row (List.mem_cons_self _ _))
    exact ⟨.jObj kvs :: objs, by simp [allRowObjs, hkvs, hobjs], List.Forall₂.cons hkvs hrel⟩

/-- C9: for a dataset produced by the load pipeline (`validate` then
`readCSVData`), `GetAll` and in-bounds `GetNth` always return `.ok`; the
`json.Marshal` panic branches of `jsonAll` and `jsonNth` are unreachable
because every cell is an `int64` or `string` primitive. -/
theorem pipeline_serialization_total (raw : RawSchema) (schema : Schema)
    (records : List (List String)) (data : CSVData) (routes : DataRoutes) (route : String)
    (_hv : raw.validate = .ok schema) (hr : readCSVData records schema = .ok data)
    (hl : lookupRoute routes route = some data) :
    (∃ j, DataRoutes.GetAll routes route = .ok j) ∧
    (∀ i : Int, 0 ≤ i → i < (data.rows.length : Int) →
      ∃ j, DataRoutes.GetNth routes route i = .ok j) := by
  have henc : ∀ row ∈ data.rows, ∀ v ∈ row, v ≠ GoValue.vUnsupported := by
    unfold readCSVData at hr
    cases hrr : readRows schema 0 records with
    | error e => rw [hrr] at hr; simp [Except.map] at hr
    | ok rows =>
      rw [hrr] at hr
      simp only [Except.map] at hr
      obtain rfl : CSVData.mk rows schema = data := by cases hr; rfl
      exact readRows_encodable schema 0 records rows hrr
  constructor
  · obtain ⟨objs, hobjs, _⟩ := allRowObjs_some data.schema.Fields data.rows henc
    exact ⟨.jArr objs, by simp [DataRoutes.GetAll, hl, CSVData.jsonAll, hobjs]⟩
  · intro i h0 hi
    have hnat : i.toNat < data.rows.length := by omega
    have hmem : data.rows.getD i.toNat [] ∈ data.rows := getD_mem_of_lt _ _ _ hnat
    obtain ⟨kvs, hkvs⟩ := rowObj_some data.schema.Fields _ (henc _ hmem)
    refine ⟨.jObj kvs, ?_⟩
    simp only [DataRoutes.GetNth, hl, CSVData.jsonNth]
    rw [if_neg (by omega), hkvs]

/-- Witness for C9 at the concrete pipeline load of record `["5"]` under
the validated schema `{fields: [n], types: [int]}`. -/
theorem pipeline_serialization_total_witness :
    (∃ j, DataRoutes.GetAll numStore "nums" = .ok j) ∧
    (∃ j, DataRoutes.GetNth numStore "nums" 0 = .ok j) := by
  have h := pipeline_serialization_total ⟨["n"], ["int"]⟩ numSchema [["5"]] numData
    numStore "nums" rfl rfl rfl
  exact ⟨h.1, h.2 0 (by decide) (by decide)⟩

/-- `charsLe` is total. -/
theorem charsLe_total (as bs : List Char) : charsLe as bs = true ∨ charsLe bs as = true := by
  induction as generalizing bs with
  | nil => exact Or.inl rfl
  | cons a as ih =>
    cases bs with
    | nil => exact Or.inr rfl
    | cons b bs =>
      by_cases hab : a = b
      · subst hab
        rcases ih bs with h | h
        · exact Or.inl (by simpa [charsLe] using h)
        · exact Or.inr (by simpa [charsLe] using h)
      · rcases lt_trichotomy a b with h | h | h
        · exact Or.inl (by simp [charsLe, hab, h])
        · exact absurd h hab
        · exact Or.inr (by
            have hba : ¬ b = a := fun hba => hab hba.symm
            simp [charsLe, hba, h])

/-- Go's string order is total. -/
theorem strLe_total (a b : String) : strLe a b = true ∨ strLe b a = true :=
  charsLe_total a.data b.data

/-- Inserting into a key-sorted entry list keeps it key-sorted (needs only
totality of the order, not transitivity). -/
theorem chain'_insertKV {α : Type} (p : String × α) (l : List (String × α))
    (h : List.Chain' (fun a b => strLe a.1 b.1 = true) l) :
    List.Chain' (fun a b => strLe a.1 b.1 = true) (insertKV p l) := by
  induction l with
  | nil => simp [insertKV]
  | cons q rest ih =>
    by_cases hle : strLe p.1 q.1
    · rw [show insertKV p (q :: rest) = p :: q :: rest from by simp [insertKV, hle]]
      exact List.chain'_cons.mpr ⟨hle, h⟩
    · rw [show insertKV p (q :: rest) = q :: insertKV p rest from by simp [insertKV, hle]]
      have hqp : strLe q.1 p.1 = true := by
        rcases strLe_total p.1 q.1 with h' | h'
        · exact absurd h' hle
        · exact h'
      have htail := ih h.tail
      cases rest with
      | nil => simp [insertKV, List.chain'_cons, hqp]
      | cons s rest' =>
        by_cases hps : strLe p.1 s.1
        · rw [show insertKV p (s :: rest') = p :: s :: rest' from by simp [insertKV, hps]] at htail ⊢
          exact List.chain'_cons.mpr ⟨hqp, htail⟩
        · rw [show insertKV p (s :: rest') = s :: insertKV p rest' from by simp [insertKV, hps]] at htail ⊢
          exact List.chain'_cons.mpr ⟨(List.chain'_cons.mp h).1, htail⟩

/-- The key sort of `encoding/json` produces a key-sorted entry list. -/
theorem chain'_sortKV {α : Type} (l : List (String × α)) :
    List.Chain' (fun a b => strLe a.1 b.1 = true) (sortKV l) := by
  induction l with
  | nil => simp [sortKV]
  | cons p rest ih => exact chain'_insertKV p (sortKV rest) ih

/-- The keys after a Go-map assignment are the old keys plus the assigned
one. -/
theorem mem_keys_assocSet {α : Type} (m : List (String × α)) (k0 : String) (v : α)
    (k : String) :
    k ∈ (assocSet m k0 v).map Prod.fst ↔ k ∈ m.map Prod.fst ∨ k = k0 := by
  induction m with
  | nil => simp [assocSet]
  | cons p rest ih =>
    by_cases hk : p.1 = k0
    · rw [show assocSet (p :: rest) k0 v = (p.1, v) :: rest from by simp [assocSet, hk]]
      simp only [List.map_cons, List.mem_cons]
      constructor
      · rintro (rfl | h)
        · exact Or.inl (Or.inl rfl)
        · exact Or.inl (Or.inr h)
      · rintro ((rfl | h) | rfl)
        · exact Or.inl rfl
        · exact Or.inr h
        · exact Or.inl hk.symm
    · rw [show assocSet (p :: rest) k0 v = p :: assocSet rest k0 v from by simp [assocSet, hk]]
      simp only [List.map_cons, List.mem_cons, ih]
      tauto

/-- The keys of a Go map built by a loop of assignments are the initial
keys plus the assigned ones. -/
theorem mem_keys_foldl_assocSet {α : Type} (pairs : List (String × α))
    (m0 : List (String × α)) (k : String) :
    k ∈ (pairs.foldl (fun m p => assocSet m p.1 p.2) m0).map Prod.fst ↔
      k ∈ m0.map Prod.fst ∨ k ∈ pairs.map Prod.fst := by
  induction pairs generalizing m0 with
  | nil => simp
  | cons p rest ih =>
    simp only [List.foldl_cons, ih, mem_keys_assocSet, List.map_cons, List.mem_cons]
    tauto

/-- A row's marshalled object under a schema whose field count matches the
row: the emitted keys are sorted and are exactly the schema's field names
(as a set). -/
theorem rowObj_shape (fields : List String) (row : List GoValue)
    (hlen : row.length = fields.length)
    (henc : ∀ v ∈ row, v ≠ GoValue.vUnsupported) :
    ∃ kvs, rowObj fields row = some (.jObj kvs) ∧
      List.Chain' (fun a b => strLe a b = true) (kvs.map Prod.fst) ∧
      ∀ k, k ∈ kvs.map Prod.fst ↔ k ∈ fields := by
  have hvals : ∀ kv ∈ sortKV (rowMap fields row), kv.2 ≠ GoValue.vUnsupported := by
    intro kv hkv
    have hmem : kv ∈ rowMap fields row := (sortKV_perm _).subset hkv
    rcases mem_foldl_assocSet _ [] hmem with h0 | ⟨p, hp, hval⟩
    · simp at h0
    · rw [hval]
      exact henc p.2 (List.of_mem_zip hp).2
  obtain ⟨js, hjs, hkeys⟩ := marshalEntries_some _ hvals
  refine ⟨js, by simp [rowObj, hjs], ?_, ?_⟩
  · rw [hkeys]
    exact (List.chain'_map Prod.fst).mpr (chain'_sortKV _)
  · intro k
    rw [hkeys]
    have hperm : List.Perm ((sortKV (rowMap fields row)).map Prod.fst)
        ((rowMap fields row).map Prod.fst) := (sortKV_perm _).map Prod.fst
    rw [hperm.mem_iff]
    unfold rowMap
    rw [mem_keys_foldl_assocSet]
    simp only [List.map_nil, List.not_mem_nil, false_or]
    rw [List.map_fst_zip fields row (by omega)]

/-- On rows whose lengths match the field count and whose values are
encodable, `jsonAll`'s loop yields one sorted, field-keyed object per
row, and pairs each row with its own serialized object in row order. -/
theorem allRowObjs_shape (fields : List String) (rows : List (List GoValue))
    (h : ∀ row ∈ rows, row.length = fields.length ∧
      ∀ v ∈ row, v ≠ GoValue.vUnsupported) :
    ∃ objs : List (List (String × JSON)),
      allRowObjs fields rows = some (objs.map .jObj) ∧
      objs.length = rows.length ∧
      List.Forall₂ (fun row kvs => rowObj fields row = some (.jObj kvs)) rows objs ∧
      ∀ kvs ∈ objs,
        List.Chain' (fun a b => strLe a b = true) (kvs.map Prod.fst) ∧
        ∀ k, k ∈ kvs.map Prod.fst ↔ k ∈ fields := by
  induction rows with
  | nil => exact ⟨[], rfl, rfl, List.Forall₂.nil, by simp⟩
  | cons row rest ih =>
    obtain ⟨objs, hobjs, hlen, hrel, hprops⟩ :=
      ih (fun r hr => h r (List.mem_cons_of_mem _ hr))
    obtain ⟨hrl, hrenc⟩ := h row (List.mem_cons_self _ _)
    obtain ⟨kvs, hkvs, hchain, hkeys⟩ := rowObj_shape fields row hrl hrenc
    refine ⟨kvs :: objs, by simp [allRowObjs, hkvs, hobjs], by simp [hlen],
      List.Forall₂.cons hkvs hrel, ?_⟩
    intro kvs' hkvs'
    rcases List.mem_cons.mp hkvs' with rfl | h'
    · exact ⟨hchain, hkeys⟩
    · exact hprops kvs' h'

/-- C2 counterexample: the claim says each serialized object's keys appear
in schema field order; on the schema with fields `["b", "a"]` the code
emits the keys in sorted order `["a", "b"]`, not in schema order. -/
theorem getAll_schema_order_cex :
    DataRoutes.GetAll unsortedStore "r" =
      .ok (.jArr [.jObj [("a", .jStr "y"), ("b", .jStr "x")]]) ∧
    unsortedData.schema.Fields = ["b", "a"] ∧
    (["a", "b"] : List String) ≠ ["b", "a"] :=
  ⟨rfl, rfl, by decide⟩

/-- C2 (amended): for every dataset in the store (well-formed, as the load
pipeline guarantees), `GetAll` returns a JSON array with one object per
row, preserving row order — the `Forall₂` conjunct pairs the i-th row
with the i-th emitted object, its serialization — each object keyed by
field name with the keys in ascending lexicographic (byte) order — not in
schema field order — and each object's key set exactly the set of the
schema's field names. -/
theorem getAll_shape (routes : DataRoutes) (route : String) (data : CSVData)
    (h : lookupRoute routes route = some data)
    (hwf : ∀ row ∈ data.rows, row.length = data.schema.Fields.length ∧
      ∀ v ∈ row, v ≠ GoValue.vUnsupported) :
    ∃ objs : List (List (String × JSON)),
      DataRoutes.GetAll routes route = .ok (.jArr (objs.map .jObj)) ∧
      objs.length = data.rows.length ∧
      List.Forall₂ (fun row kvs => rowObj data.schema.Fields row = some (.jObj kvs))
        data.rows objs ∧
      ∀ kvs ∈ objs,
        List.Chain' (fun a b => strLe a b = true) (kvs.map Prod.fst) ∧
        ∀ k, k ∈ kvs.map Prod.fst ↔ k ∈ data.schema.Fields := by
  obtain ⟨objs, hobjs, hlen, hrel, hprops⟩ :=
    allRowObjs_shape data.schema.Fields data.rows hwf
  exact ⟨objs, by simp [DataRoutes.GetAll, h, CSVData.jsonAll, hobjs], hlen, hrel, hprops⟩

/-- Witness for the amended C2 at the concrete unsorted-field dataset. -/
theorem getAll_shape_witness :
    ∃ objs : List (List (String × JSON)),
      DataRoutes.GetAll unsortedStore "r" = .ok (.jArr (objs.map .jObj)) ∧
      objs.length = unsortedData.rows.length ∧
      List.Forall₂ (fun row kvs => rowObj unsortedData.schema.Fields row = some (.jObj kvs))
        unsortedData.rows objs ∧
      ∀ kvs ∈ objs,
        List.Chain' (fun a b => strLe a b = true) (kvs.map Prod.fst) ∧
        ∀ k, k ∈ kvs.map Prod.fst ↔ k ∈ unsortedData.schema.Fields :=
  getAll_shape unsortedStore "r" unsortedData rfl (by decide)

/-- An indexwise reading of `List.Forall₂` via `getD`. -/
theorem forall₂_getD {α β : Type} {R : α → β → Prop} {as : List α} {bs : List β}
    (h : List.Forall₂ R as bs) (n : Nat) (da : α) (db : β) (hn : n < as.length) :
    R (as.getD n da) (bs.getD n db) := by
  induction h generalizing n with
  | nil => simp at hn
  | cons hr ht ih =>
    cases n with
    | zero => simpa using hr
    | succ n' => simpa using ih n' (by simpa using hn)

/-- C3: on a route present in the store with encodable rows and an index
`0 ≤ i < rowCount`, `GetNth` succeeds and returns exactly the `i`-th
element of the array `GetAll` returns. -/
theorem getNth_matches_getAll (routes : DataRoutes) (route : String) (data : CSVData)
    (i : Int) (h : lookupRoute routes route = some data)
    (henc : ∀ row ∈ data.rows, ∀ v ∈ row, v ≠ GoValue.vUnsupported)
    (h0 : 0 ≤ i) (hi : i < (data.rows.length : Int)) :
    ∃ objs j, DataRoutes.GetAll routes route = .ok (.jArr objs) ∧
      DataRoutes.GetNth routes route i = .ok j ∧
      objs.getD i.toNat .jNull = j := by
  obtain ⟨objs, hobjs, hrel⟩ := allRowObjs_some data.schema.Fields data.rows henc
  have hnat : i.toNat < data.rows.length := by omega
  have hnth : rowObj data.schema.Fields (data.rows.getD i.toNat []) =
      some (objs.getD i.toNat .jNull) :=
    forall₂_getD hrel i.toNat [] .jNull hnat
  refine ⟨objs, objs.getD i.toNat .jNull, ?_, ?_, rfl⟩
  · simp [DataRoutes.GetAll, h, CSVData.jsonAll, hobjs]
  · simp only [DataRoutes.GetNth, h, CSVData.jsonNth]
    rw [if_neg (by omega), hnth]

/-- Witness for C3 at the concrete `people` store and index 1. -/
theorem getNth_matches_getAll_witness :
    ∃ objs j, DataRoutes.GetAll demoStore "people" = .ok (.jArr objs) ∧
      DataRoutes.GetNth demoStore "people" 1 = .ok j ∧
      objs.getD (1 : Int).toNat .jNull = j :=
  getNth_matches_getAll demoStore "people" peopleData 1 rfl (by decide)
    (by decide) (by decide)

/-- Stripping a common suffix is injective on the strings that end in it:
a listing with distinct names yields distinct base names. -/
theorem stripEnd_inj (suf a b : String) (ha : goHasSuffix a suf = true)
    (hb : goHasSuffix b suf = true) (h : stripEnd a suf = stripEnd b suf) : a = b := by
  have ha' : a.data.drop (a.data.length - suf.data.length) = suf.data := by
    simpa [goHasSuffix] using ha
  have hb' : b.data.drop (b.data.length - suf.data.length) = suf.data := by
    simpa [goHasSuffix] using hb
  have h' : a.data.take (a.data.length - suf.data.length) =
      b.data.take (b.data.length - suf.data.length) := congrArg String.data h
  apply String.ext
  calc a.data
      = a.data.take (a.data.length - suf.data.length) ++
        a.data.drop (a.data.length - suf.data.length) :=
        (List.take_append_drop _ _).symm
    _ = b.data.take (b.data.length - suf.data.length) ++
        b.data.drop (b.data.length - suf.data.length) := by rw [h', ha', hb']
    _ = b.data := List.take_append_drop _ _

/-- The base names extracted from a duplicate-free listing are
duplicate-free. -/
theorem stripped_nodup (suf : String) (paths : List String) (hnd : paths.Nodup) :
    ((paths.filter (fun p => goHasSuffix p suf)).map (fun p => stripEnd p suf)).Nodup := by
  apply List.Nodup.map_on
  · intro x hx y hy hxy
    exact stripEnd_inj suf x y (List.mem_filter.mp hx).2 (List.mem_filter.mp hy).2 hxy
  · exact hnd.filter _

/-- The inner matching loop finds nothing exactly when the base name has
no schema file. -/
theorem matchOne_isEmpty_iff (root base : String) (jsons : List String) :
    (matchOne root base jsons).isEmpty = true ↔ base ∉ jsons := by
  simp only [matchOne, List.isEmpty_iff, List.filterMap_eq_nil_iff]
  constructor
  · intro h hmem
    have := h base hmem
    simp at this
  · intro h j hj
    have hne : base ≠ j := fun he => h (he ▸ hj)
    simp [hne]

/-- With duplicate-free schema base names, the inner matching loop of a
present base name yields exactly one pair. -/
theorem matchOne_single (root base : String) (jsons : List String)
    (hmem : base ∈ jsons) (hnd : jsons.Nodup) :
    matchOne root base jsons =
      [⟨base, root ++ base ++ ".csv", root ++ base ++ ".json"⟩] := by
  induction jsons with
  | nil => simp at hmem
  | cons j rest ih =>
    by_cases hj : base = j
    · subst hj
      have hnot : base ∉ rest := (List.nodup_cons.mp hnd).1
      have hnil : matchOne root base rest = [] := by
        rw [← List.isEmpty_iff]
        exact (matchOne_isEmpty_iff root base rest).mpr hnot
      simp only [matchOne, List.filterMap_cons] at hnil ⊢
      simp [hnil]
    · have hmem' : base ∈ rest := by
        rcases List.mem_cons.mp hmem with he | hr
        · exact absurd he hj
        · exact hr
      have := ih hmem' (List.nodup_cons.mp hnd).2
      simp only [matchOne, List.filterMap_cons] at this ⊢
      simp only [if_neg hj]
      exact this

/-- When every CSV base name has a schema, the outer loop succeeds with
exactly one pair per CSV base name, in discovery order. -/
theorem matchLoop_ok (root : String) (jsons : List String) (csvs : List String)
    (hnd : jsons.Nodup) (hall : ∀ c ∈ csvs, c ∈ jsons) :
    ∃ res, matchLoop root jsons csvs = .ok res ∧ res.map dataPath.route = csvs := by
  induction csvs with
  | nil => exact ⟨[], rfl, rfl⟩
  | cons c cs ih =>
    obtain ⟨res, hres, hmap⟩ := ih (fun x hx => hall x (List.mem_cons_of_mem _ hx))
    have hm := matchOne_single root c jsons (hall c (List.mem_cons_self _ _)) hnd
    refine ⟨⟨c, root ++ c ++ ".csv", root ++ c ++ ".json"⟩ :: res, ?_, by simp [hmap]⟩
    simp [matchLoop, hm, hres, Except.map]

/-- When some CSV base name has no schema, the outer loop fails at the
first such name, with the error message naming it. -/
theorem matchLoop_err (root : String) (jsons : List String) (csvs : List String)
    (hex : ∃ c ∈ csvs, c ∉ jsons) :
    ∃ c, c ∈ csvs ∧ c ∉ jsons ∧ matchLoop root jsons csvs = .error (missingMsg c) := by
  induction csvs with
  | nil => simp at hex
  | cons c cs ih =>
    by_cases hc : c ∈ jsons
    · have hex' : ∃ x ∈ cs, x ∉ jsons := by
        rcases hex with ⟨x, hx, hxn⟩
        rcases List.mem_cons.mp hx with rfl | hx'
        · exact absurd hc hxn
        · exact ⟨x, hx', hxn⟩
      obtain ⟨x, hx, hxn, herr⟩ := ih hex'
      refine ⟨x, List.mem_cons_of_mem _ hx, hxn, ?_⟩
      have hne : (matchOne root c jsons).isEmpty = false := by
        rcases he : (matchOne root c jsons).isEmpty with _ | _
        · rfl
        · exact absurd ((matchOne_isEmpty_iff root c jsons).mp he) (by simpa using hc)
      simp [matchLoop, hne, herr, Except.map]
    · refine ⟨c, List.mem_cons_self _ _, hc, ?_⟩
      have he : (matchOne root c jsons).isEmpty = true :=
        (matchOne_isEmpty_iff root c jsons).mpr hc
      simp [matchLoop, he]

/-- C8: on a duplicate-free listing in which every data-file base name has
an exact-string match among the schema-file base names, discovery returns
exactly one pair per data file, with the route names in discovery order
and none lost or duplicated; if some data file has no same-named schema
file, discovery fails and the error message names the offending file. -/
theorem matchDataPaths_discovery (root : String) (paths : List String)
    (hnd : paths.Nodup) :
    ((∀ c ∈ csvBases paths, c ∈ jsonBases paths) →
      ∃ res, matchDataPaths root paths = .ok res ∧
        res.map dataPath.route = csvBases paths ∧ (csvBases paths).Nodup)
  ∧ ((∃ c ∈ csvBases paths, c ∉ jsonBases paths) →
      ∃ c, c ∈ csvBases paths ∧ c ∉ jsonBases paths ∧
        matchDataPaths root paths = .error (missingMsg c)) := by
  constructor
  · intro hall
    obtain ⟨res, hres, hmap⟩ := matchLoop_ok root (jsonBases paths) (csvBases paths)
      (stripped_nodup ".json" paths hnd) hall
    exact ⟨res, hres, hmap, stripped_nodup ".csv" paths hnd⟩
  · intro hex
    exact matchLoop_err root (jsonBases paths) (csvBases paths) hex

/-- Witness for C8: a complete listing succeeds with one route per data
file; a listing whose data file lacks a schema fails naming it. -/
theorem matchDataPaths_discovery_witness :
    (∃ res, matchDataPaths "d/" ["people.csv", "people.json", "cats.csv", "cats.json"] =
        .ok res ∧
      res.map dataPath.route = csvBases ["people.csv", "people.json", "cats.csv", "cats.json"] ∧
      (csvBases ["people.csv", "people.json", "cats.csv", "cats.json"]).Nodup) ∧
    (∃ c, c ∈ csvBases ["people.csv"] ∧ c ∉ jsonBases ["people.csv"] ∧
      matchDataPaths "d/" ["people.csv"] = .error (missingMsg c)) :=
  ⟨(matchDataPaths_discovery "d/" ["people.csv", "people.json", "cats.csv", "cats.json"]
      (by decide)).1 (by decide),
   (matchDataPaths_discovery "d/" ["people.csv"] (by decide)).2
     ⟨"people", by decide, by decide⟩⟩

end ServeCSV
